import Mathlib

/-!
# Verification of the Nim game engine and tabular Q-learner (`nim.py`)

Shallow embedding of `src/nim.py`.  Pile configurations are lists of natural
numbers; Python ints appearing in actions and player identifiers are modelled
by `Int`; the real-valued Q-estimates are modelled by `ℚ`.  Mutation of the
game object is modelled by state passing: `Nim.move` returns the new game
state together with an optional error (a Python exception leaves `self`
unchanged, since every `raise` in `move` happens before any mutation).
-/

/-- A Python sequence of pile counts: either a `list` or a `tuple` holding the
same elements.  This keeps the distinction that the source's `tuple(state)`
normalization erases, so that normalization can be stated as a theorem. -/
inductive PySeq where
  | list  (elems : List Nat)
  | tuple (elems : List Nat)
deriving DecidableEq

/-- The underlying element sequence of a Python sequence. -/
def PySeq.elems : PySeq → List Nat
  | .list xs => xs
  | .tuple xs => xs

/-- Python's `tuple(state)` conversion. -/
def pyTuple (s : PySeq) : PySeq := .tuple s.elems

/-- The game board of `class Nim`: `piles` (objects remaining in each pile),
`player` (0 or 1, whose turn it is), `winner` (`None`, 0 or 1). -/
structure Nim where
  piles : List Nat
  player : Int
  winner : Option Int
deriving DecidableEq

/-- `Nim.__init__`: `piles = initial.copy()`, `player = 0`, `winner = None`
(the Python default argument is `[1, 3, 5, 7]`). -/
def Nim.init (initial : List Nat) : Nim :=
  { piles := initial, player := 0, winner := none }

/-- `Nim.available_actions(piles)`: all `(i, j)` where `i` indexes a pile and
`j` ranges over `range(1, pile + 1)`; the nested `for` loops accumulating into
a `set` become a fold over `piles.enum` accumulating finset unions. -/
def Nim.available_actions (piles : List Nat) : Finset (Int × Int) :=
  piles.enum.foldl
    (fun actions ip =>
      actions ∪ (Finset.Icc (1 : Int) (ip.2 : Int)).image (fun j => ((ip.1 : Int), j)))
    ∅

/-- `Nim.other_player(player)`: `0 if player == 1 else 1`. -/
def Nim.other_player (player : Int) : Int :=
  if player = 1 then 0 else 1

/-- The three exceptions `Nim.move` can raise, by their messages.  The spec's
`InvalidState` is `gameAlreadyWon`; the spec's `InvalidAction` covers
`invalidPile` ("Invalid pile") and `invalidNumberOfObjects`
("Invalid number of objects"). -/
inductive NimError where
  | gameAlreadyWon
  | invalidPile
  | invalidNumberOfObjects
deriving DecidableEq

/-- `Nim.move(action)`: error checks first (game already won, pile index out of
range, count outside `[1, piles[pile]]`), then decrement the pile, switch the
player, and declare the (switched) current player the winner if all piles are
now empty.  Returns the resulting game state and the raised exception, if any;
a raise happens before any mutation, so the state comes back unchanged then. -/
def Nim.move (g : Nim) (action : Int × Int) : Nim × Option NimError :=
  if g.winner.isSome then (g, some NimError.gameAlreadyWon)
  else if action.1 < 0 ∨ (g.piles.length : Int) ≤ action.1 then
    (g, some NimError.invalidPile)
  else if action.2 < 1 ∨ (g.piles.getD action.1.toNat 0 : Int) < action.2 then
    (g, some NimError.invalidNumberOfObjects)
  else
    ({ piles := g.piles.set action.1.toNat (g.piles.getD action.1.toNat 0 - action.2.toNat),
       player := Nim.other_player g.player,
       winner :=
         if (g.piles.set action.1.toNat
              (g.piles.getD action.1.toNat 0 - action.2.toNat)).all (fun pile => pile == 0)
         then some (Nim.other_player g.player) else g.winner },
     none)

/-- Membership in a left fold of finset unions. -/
theorem mem_foldl_union {α β : Type} [DecidableEq β] (f : α → Finset β)
    (l : List α) (init : Finset β) (x : β) :
    x ∈ l.foldl (fun s p => s ∪ f p) init ↔ x ∈ init ∨ ∃ p ∈ l, x ∈ f p := by
  induction l generalizing init with
  | nil => simp
  | cons a t ih =>
      simp only [List.foldl_cons, ih, Finset.mem_union, List.mem_cons]
      constructor
      · rintro (⟨hx | hx⟩ | ⟨p, hp, hx⟩)
        · exact Or.inl hx
        · exact Or.inr ⟨a, Or.inl rfl, hx⟩
        · exact Or.inr ⟨p, Or.inr hp, hx⟩
      · rintro (hx | ⟨p, rfl | hp, hx⟩)
        · exact Or.inl (Or.inl hx)
        · exact Or.inl (Or.inr hx)
        · exact Or.inr ⟨p, hp, hx⟩

/-- Characterization of `Nim.available_actions`: exactly the pairs `(i, j)`
with `i` a valid pile index and `1 ≤ j ≤ piles[i]`. -/
theorem mem_available_actions (piles : List Nat) (i j : Int) :
    (i, j) ∈ Nim.available_actions piles ↔
      0 ≤ i ∧ i.toNat < piles.length ∧ 1 ≤ j ∧ j ≤ (piles.getD i.toNat 0 : Int) := by
  unfold Nim.available_actions
  rw [mem_foldl_union]
  simp only [Finset.not_mem_empty, false_or, Finset.mem_image, Finset.mem_Icc, Prod.exists,
    List.mk_mem_enum_iff_getElem?]
  constructor
  · rintro ⟨k, v, hkv, x, ⟨hx1, hx2⟩, hpair⟩
    obtain ⟨hi, hj⟩ := Prod.mk.injEq .. ▸ hpair
    subst hi hj
    have hk : k < piles.length := by
      by_contra hk
      rw [List.getElem?_eq_none (by omega)] at hkv
      exact Option.noConfusion hkv
    have hv : piles.getD k 0 = v := by
      rw [List.getD_eq_getElem?_getD, hkv]; rfl
    refine ⟨Int.natCast_nonneg k, ?_, hx1, ?_⟩
    · rwa [Int.toNat_natCast]
    · rw [Int.toNat_natCast, hv]; exact hx2
  · rintro ⟨hi0, hilen, hj1, hjle⟩
    refine ⟨i.toNat, piles.getD i.toNat 0, ?_, j, ⟨hj1, hjle⟩, ?_⟩
    · rw [List.getD_eq_getElem?_getD, List.getElem?_eq_getElem hilen]; rfl
    · rw [Int.toNat_of_nonneg hi0]

/-- The learner of `class NimAI`: `q` is the dictionary mapping
`(state, action)` pairs (states already normalized to tuples, represented by
their element list) to Q-values; `alpha` the learning rate, `epsilon` the
exploration rate.  The Python `dict` is modelled as an association list where
assignment prepends and lookup takes the first match. -/
structure NimAI where
  q : List ((List Nat × (Int × Int)) × ℚ)
  alpha : ℚ
  epsilon : ℚ
deriving DecidableEq

/-- `NimAI.__init__`: `q = dict()` (the Python defaults are `alpha=0.5`,
`epsilon=0.1`). -/
def NimAI.init (alpha epsilon : ℚ) : NimAI :=
  { q := [], alpha := alpha, epsilon := epsilon }

/-- Python `dict.get(key, default=None)` on the association-list model. -/
def dictGet (q : List ((List Nat × (Int × Int)) × ℚ)) (key : List Nat × (Int × Int)) :
    Option ℚ :=
  match q with
  | [] => none
  | entry :: rest => if key = entry.1 then some entry.2 else dictGet rest key

/-- Python `d[key] = v` on the association-list model: prepend; `dictGet`
finds the newest binding, so this overwrites. -/
def dictSet (q : List ((List Nat × (Int × Int)) × ℚ)) (key : List Nat × (Int × Int))
    (v : ℚ) : List ((List Nat × (Int × Int)) × ℚ) :=
  (key, v) :: q

/-- The key set of the Q-table. -/
def NimAI.qKeys (ai : NimAI) : Finset (List Nat × (Int × Int)) :=
  (ai.q.map Prod.fst).toFinset

/-- `NimAI.get_q_value(state, action)`: `state = tuple(state)`, then
`self.q.get((state, action), 0)` — 0 for a pair never seen before. -/
def NimAI.get_q_value (ai : NimAI) (state : PySeq) (action : Int × Int) : ℚ :=
  match dictGet ai.q ((pyTuple state).elems, action) with
  | some v => v
  | none => 0

/-- `NimAI.update_q_value(state, action, old_q, reward, future_rewards)`:
`new_estimate = reward + future_rewards`, `state = tuple(state)`, then
`self.q[(state, action)] = old_q + self.alpha * (new_estimate - old_q)`. -/
def NimAI.update_q_value (ai : NimAI) (state : PySeq) (action : Int × Int)
    (old_q reward future_rewards : ℚ) : NimAI :=
  let new_estimate := reward + future_rewards
  { ai with
    q := dictSet ai.q ((pyTuple state).elems, action)
          (old_q + ai.alpha * (new_estimate - old_q)) }

/-- `NimAI.best_future_reward(state)`: 0 if no action is available, otherwise
the maximum of `get_q_value(state, action)` over `Nim.available_actions(state)`
(enumerated on the fly, not restricted to keys of `self.q`). -/
def NimAI.best_future_reward (ai : NimAI) (state : PySeq) : ℚ :=
  let actions := Nim.available_actions state.elems
  if h : actions.Nonempty then
    actions.sup' h (fun action => ai.get_q_value state action)
  else 0

/-- `NimAI.update(old_state, action, new_state, reward)`:
`old = get_q_value(old_state, action)`,
`best_future = best_future_reward(new_state)`, then
`update_q_value(old_state, action, old, reward, best_future)`. -/
def NimAI.update (ai : NimAI) (old_state : PySeq) (action : Int × Int)
    (new_state : PySeq) (reward : ℚ) : NimAI :=
  let old := ai.get_q_value old_state action
  let best_future := ai.best_future_reward new_state
  ai.update_q_value old_state action old reward best_future

/-- The loop of `NimAI.choose_action` computing `max_q` / `best_actions`:
starting from `max_q = float("-inf")` (modelled `⊥ : WithBot ℚ`) and
`best_actions = []`, each action with a strictly larger Q-value resets the
tie list, an exact tie is appended, and a smaller value is skipped. -/
def NimAI.max_q_fold (ai : NimAI) (state : PySeq)
    (acc : WithBot ℚ × List (Int × Int)) (actions : List (Int × Int)) :
    WithBot ℚ × List (Int × Int) :=
  actions.foldl
    (fun acc action =>
      let q_val := ai.get_q_value state action
      if (q_val : WithBot ℚ) > acc.1 then ((q_val : WithBot ℚ), [action])
      else if (q_val : WithBot ℚ) = acc.1 then (acc.1, acc.2 ++ [action])
      else acc)
    acc

/-- `NimAI.choose_action(state, epsilon)`.  Python iterates the action set in
unspecified order and draws from the global `random`; the model takes the
enumeration `actions` of `Nim.available_actions(state)` (Python's
`list(...)`) and the exploration draw (`random.random()`) as parameters, and
returns the candidate list from which `random.choice` picks uniformly:
`none` when no action is available, the whole enumeration on the exploration
branch, and the `best_actions` tie list on the greedy branch. -/
def NimAI.choose_action (ai : NimAI) (state : PySeq) (actions : List (Int × Int))
    (epsilon : Bool) (draw : ℚ) : Option (List (Int × Int)) :=
  if actions = [] then none
  else if epsilon = true ∧ draw < ai.epsilon then some actions
  else some (ai.max_q_fold state ((⊥ : WithBot ℚ), []) actions).2

@[simp]
theorem pyTuple_elems (s : PySeq) : (pyTuple s).elems = s.elems := rfl

/-- C4: for every pile configuration, `available_actions` returns exactly the
set of pairs `(i, j)` with `piles[i] > 0` and `1 ≤ j ≤ piles[i]` (equivalently,
`i` a valid index and `1 ≤ j ≤ piles[i]`), and this set is empty if and only if
every pile is 0. -/
theorem available_actions_exact :
    ∀ (piles : List Nat),
      (∀ i j : Int,
        ((i, j) ∈ Nim.available_actions piles ↔
          0 ≤ i ∧ i.toNat < piles.length ∧ 1 ≤ j ∧ j ≤ (piles.getD i.toNat 0 : Int))) ∧
      (Nim.available_actions piles = ∅ ↔ ∀ p ∈ piles, p = 0) := by
  intro piles
  refine ⟨fun i j => mem_available_actions piles i j, ?_, ?_⟩
  · intro h p hp
    by_contra hp0
    obtain ⟨k, hk, hpk⟩ := List.getElem_of_mem hp
    have hmem : ((k : Int), (1 : Int)) ∈ Nim.available_actions piles := by
      rw [mem_available_actions]
      refine ⟨Int.natCast_nonneg k, by rwa [Int.toNat_natCast], le_refl 1, ?_⟩
      rw [Int.toNat_natCast, List.getD_eq_getElem?_getD, List.getElem?_eq_getElem hk]
      simp only [Option.getD_some]
      omega
    rw [h] at hmem
    exact Finset.not_mem_empty _ hmem
  · intro h
    rw [Finset.eq_empty_iff_forall_not_mem]
    rintro ⟨i, j⟩ hmem
    rw [mem_available_actions] at hmem
    obtain ⟨h0, hlen, h1, hle⟩ := hmem
    have hel : piles.getD i.toNat 0 = piles[i.toNat] := by
      rw [List.getD_eq_getElem?_getD, List.getElem?_eq_getElem hlen]; rfl
    have hz : piles[i.toNat] = 0 := h _ (List.getElem_mem hlen)
    rw [hel, hz] at hle
    omega

/-- C1: `update` sets the table entry for `(old_state, action)` to
`old + alpha * ((reward + future) - old)` where `old` is the prior
`get_q_value(old_state, action)` and `future` is
`best_future_reward(new_state)`; on a fresh learner with `alpha = 0.5`,
`update((0,0,1,0), (3,1), (0,0,0,0), -1)` sets the entry to `-0.5`. -/
theorem update_q_formula :
    (∀ (ai : NimAI) (old_state : PySeq) (action : Int × Int) (new_state : PySeq)
        (reward : ℚ),
      (ai.update old_state action new_state reward).get_q_value old_state action =
        ai.get_q_value old_state action +
          ai.alpha * ((reward + ai.best_future_reward new_state) -
            ai.get_q_value old_state action)) ∧
    ((NimAI.init (1/2) (1/10)).update (PySeq.tuple [0, 0, 1, 0]) (3, 1)
        (PySeq.tuple [0, 0, 0, 0]) (-1)).get_q_value (PySeq.tuple [0, 0, 1, 0]) (3, 1) =
      -(1/2) := by
  constructor
  · intro ai old_state action new_state reward
    simp [NimAI.update, NimAI.update_q_value, NimAI.get_q_value, dictGet, dictSet]
  · norm_num [NimAI.update, NimAI.update_q_value, NimAI.get_q_value, NimAI.best_future_reward,
      dictGet, dictSet, Nim.available_actions, List.enum, NimAI.init]

/-- An `update` invocation is only its own key away from a no-op on reads:
looking up any other pair is unchanged. -/
theorem get_q_value_update_of_ne (ai : NimAI) (s ns : PySeq) (a : Int × Int) (r : ℚ)
    (s' : PySeq) (a' : Int × Int) (h : (s'.elems, a') ≠ (s.elems, a)) :
    (ai.update s a ns r).get_q_value s' a' = ai.get_q_value s' a' := by
  simp only [NimAI.update, NimAI.update_q_value, NimAI.get_q_value, dictGet, dictSet,
    pyTuple_elems]
  rw [if_neg h]

/-- One `update` call per element of a list, applied left to right: a training
history acting on a learner. -/
def applyUpdates (ai : NimAI) : List (PySeq × (Int × Int) × PySeq × ℚ) → NimAI
  | [] => ai
  | u :: rest => applyUpdates (ai.update u.1 u.2.1 u.2.2.1 u.2.2.2) rest

theorem get_q_value_applyUpdates (updates : List (PySeq × (Int × Int) × PySeq × ℚ)) :
    ∀ (ai : NimAI) (s : PySeq) (a : Int × Int),
      (∀ u ∈ updates, ((u.1).elems, u.2.1) ≠ (s.elems, a)) →
      (applyUpdates ai updates).get_q_value s a = ai.get_q_value s a := by
  induction updates with
  | nil => intro ai s a _; rfl
  | cons u rest ih =>
      intro ai s a h
      rw [applyUpdates, ih _ s a (fun v hv => h v (List.mem_cons_of_mem _ hv)),
        get_q_value_update_of_ne]
      exact fun heq => h u (List.mem_cons_self _ _) heq.symm

/-- C7: a `(state, action)` pair never written by any `update` in a learner's
history still reads as 0, and the state is normalized to its element tuple
before lookup and write, so a list and a tuple (or any two sequences) with
equal elements read and write the same table entry. -/
theorem q_value_unseen_zero_and_normalized :
    (∀ (alpha epsilon : ℚ) (updates : List (PySeq × (Int × Int) × PySeq × ℚ))
        (s : PySeq) (a : Int × Int),
      (∀ u ∈ updates, ((u.1).elems, u.2.1) ≠ (s.elems, a)) →
      (applyUpdates (NimAI.init alpha epsilon) updates).get_q_value s a = 0) ∧
    (∀ (ai : NimAI) (s1 s2 : PySeq) (a : Int × Int),
      s1.elems = s2.elems → ai.get_q_value s1 a = ai.get_q_value s2 a) ∧
    (∀ (ai : NimAI) (s1 s2 ns : PySeq) (a : Int × Int) (r : ℚ),
      s1.elems = s2.elems → ai.update s1 a ns r = ai.update s2 a ns r) := by
  refine ⟨?_, ?_, ?_⟩
  · intro alpha epsilon updates s a h
    rw [get_q_value_applyUpdates updates _ s a h]
    rfl
  · intro ai s1 s2 a h
    simp only [NimAI.get_q_value, pyTuple_elems, h]
  · intro ai s1 s2 ns a r h
    simp only [NimAI.update, NimAI.update_q_value, NimAI.get_q_value, pyTuple_elems, h]

/-- Witness for C7 at concrete inputs: the pair `((1,3,5,7), (0,1))` reads 0
after a history that wrote only `((0,0,1,0), (3,1))`, and a `list` state and a
`tuple` state with equal elements read the same entry. -/
theorem q_value_unseen_zero_and_normalized_witness :
    ((applyUpdates (NimAI.init (1/2) (1/10))
        [(PySeq.list [0, 0, 1, 0], (3, 1), PySeq.tuple [0, 0, 0, 0], -1)]).get_q_value
      (PySeq.tuple [1, 3, 5, 7]) (0, 1) = 0) ∧
    ((NimAI.init (1/2) (1/10)).get_q_value (PySeq.list [0, 0, 1, 0]) (3, 1) =
      (NimAI.init (1/2) (1/10)).get_q_value (PySeq.tuple [0, 0, 1, 0]) (3, 1)) :=
  ⟨q_value_unseen_zero_and_normalized.1 (1/2) (1/10) _ _ _ (by decide),
   q_value_unseen_zero_and_normalized.2.1 _ _ _ _ rfl⟩

/-- C10: `update` writes at most the single entry keyed by the normalized old
state and the action — the key set becomes exactly `insert` of that key, so it
never shrinks — and every other key's binding is untouched. -/
theorem q_table_monotone :
    ∀ (ai : NimAI) (s : PySeq) (a : Int × Int) (ns : PySeq) (r : ℚ),
      ((ai.update s a ns r).qKeys = insert (s.elems, a) ai.qKeys) ∧
      (ai.qKeys ⊆ (ai.update s a ns r).qKeys) ∧
      (∀ k, k ≠ (s.elems, a) →
        dictGet (ai.update s a ns r).q k = dictGet ai.q k) := by
  intro ai s a ns r
  have h1 : (ai.update s a ns r).qKeys = insert (s.elems, a) ai.qKeys := by
    simp [NimAI.update, NimAI.update_q_value, NimAI.qKeys, dictSet]
  refine ⟨h1, ?_, ?_⟩
  · rw [h1]; exact Finset.subset_insert _ _
  · intro k hk
    simp only [NimAI.update, NimAI.update_q_value, dictSet, dictGet, pyTuple_elems]
    rw [if_neg hk]

/-- Witness for C10 at concrete inputs: updating the key `((0,0,1,0), (3,1))`
leaves the binding of the distinct key `((1,3,5,7), (0,1))` unchanged. -/
theorem q_table_monotone_witness :
    dictGet ((NimAI.init (1/2) (1/10)).update (PySeq.tuple [0, 0, 1, 0]) (3, 1)
        (PySeq.tuple [0, 0, 0, 0]) (-1)).q ([1, 3, 5, 7], (0, 1)) =
      dictGet (NimAI.init (1/2) (1/10)).q ([1, 3, 5, 7], (0, 1)) :=
  (q_table_monotone (NimAI.init (1/2) (1/10)) (PySeq.tuple [0, 0, 1, 0]) (3, 1)
    (PySeq.tuple [0, 0, 0, 0]) (-1)).2.2 ([1, 3, 5, 7], (0, 1)) (by decide)

/-- C6: `best_future_reward` is 0 on a state with no legal action, and
otherwise is the maximum of `get_q_value` over the on-the-fly enumeration of
all legal actions — an upper bound that is attained — so a legal action absent
from the table contributes its implicit 0 and the result is then nonnegative.
Totality (it never fails) is by type. -/
theorem best_future_reward_spec :
    ∀ (ai : NimAI) (state : PySeq),
      (Nim.available_actions state.elems = ∅ → ai.best_future_reward state = 0) ∧
      (∀ a ∈ Nim.available_actions state.elems,
        ai.get_q_value state a ≤ ai.best_future_reward state) ∧
      ((Nim.available_actions state.elems).Nonempty →
        ∃ a ∈ Nim.available_actions state.elems,
          ai.best_future_reward state = ai.get_q_value state a) ∧
      ((∃ a ∈ Nim.available_actions state.elems,
          dictGet ai.q (state.elems, a) = none) →
        0 ≤ ai.best_future_reward state) := by
  intro ai state
  refine ⟨?_, ?_, ?_, ?_⟩
  · intro h
    rw [NimAI.best_future_reward, dif_neg]
    rw [Finset.not_nonempty_iff_eq_empty]
    exact h
  · intro a ha
    have hne : (Nim.available_actions state.elems).Nonempty := ⟨a, ha⟩
    rw [NimAI.best_future_reward, dif_pos hne]
    exact Finset.le_sup' _ ha
  · intro hne
    rw [NimAI.best_future_reward, dif_pos hne]
    obtain ⟨a, ha, hval⟩ := Finset.exists_mem_eq_sup' hne
      (fun action => ai.get_q_value state action)
    exact ⟨a, ha, hval⟩
  · rintro ⟨a, ha, hnone⟩
    have hz : ai.get_q_value state a = 0 := by
      rw [NimAI.get_q_value, pyTuple_elems, hnone]
    have hne : (Nim.available_actions state.elems).Nonempty := ⟨a, ha⟩
    rw [NimAI.best_future_reward, dif_pos hne]
    calc (0 : ℚ) = ai.get_q_value state a := hz.symm
      _ ≤ _ := Finset.le_sup' _ ha

/-- Witness for C6 at concrete inputs: on the fresh learner and state `(1)`
(one pile of one object, the single legal action `(0, 1)` unseen in the empty
table), `best_future_reward` is bounded below by the action's value 0 and by 0
itself. -/
theorem best_future_reward_spec_witness :
    ((NimAI.init (1/2) (1/10)).get_q_value (PySeq.tuple [1]) (0, 1) ≤
      (NimAI.init (1/2) (1/10)).best_future_reward (PySeq.tuple [1])) ∧
    (0 ≤ (NimAI.init (1/2) (1/10)).best_future_reward (PySeq.tuple [1])) :=
  ⟨(best_future_reward_spec (NimAI.init (1/2) (1/10)) (PySeq.tuple [1])).2.1 (0, 1)
      (by decide),
   (best_future_reward_spec (NimAI.init (1/2) (1/10)) (PySeq.tuple [1])).2.2.2
      ⟨(0, 1), by decide, rfl⟩⟩

/-- C5: `move` on a game whose winner is already set fails with the
terminal-game error; `move` with a pile index out of range fails with the
invalid-pile error, and with a count outside `[1, piles[pile]]` with the
invalid-count error (the spec's InvalidAction covers both); in every failing
case the returned game — piles, current player and winner — is exactly the
input game, unchanged. -/
theorem move_error_spec :
    ∀ (g : Nim) (action : Int × Int),
      (g.winner.isSome → g.move action = (g, some NimError.gameAlreadyWon)) ∧
      (g.winner = none → (action.1 < 0 ∨ (g.piles.length : Int) ≤ action.1) →
        g.move action = (g, some NimError.invalidPile)) ∧
      (g.winner = none → ¬(action.1 < 0 ∨ (g.piles.length : Int) ≤ action.1) →
        (action.2 < 1 ∨ (g.piles.getD action.1.toNat 0 : Int) < action.2) →
        g.move action = (g, some NimError.invalidNumberOfObjects)) ∧
      (∀ e, (g.move action).2 = some e → (g.move action).1 = g) := by
  intro g action
  refine ⟨?_, ?_, ?_, ?_⟩
  · intro hw
    rw [Nim.move, if_pos hw]
  · intro hw hp
    rw [Nim.move, if_neg (by rw [hw]; exact Bool.false_ne_true ∘ id), if_pos hp]
  · intro hw hp hc
    rw [Nim.move, if_neg (by rw [hw]; exact Bool.false_ne_true ∘ id), if_neg hp, if_pos hc]
  · intro e
    rw [Nim.move]
    split_ifs
    all_goals intro hsome
    any_goals rfl
    all_goals exact hsome.elim

/-- Witness for C5 at concrete inputs: moving on a finished game, moving with
pile index 5 on four piles, and taking 2 objects from a pile of 1 all fail
with the corresponding error and return the game unchanged. -/
theorem move_error_spec_witness :
    ((Nim.mk [0, 0, 0, 0] 1 (some 1)).move (0, 1) =
      (Nim.mk [0, 0, 0, 0] 1 (some 1), some NimError.gameAlreadyWon)) ∧
    ((Nim.mk [1, 3, 5, 7] 0 none).move (5, 1) =
      (Nim.mk [1, 3, 5, 7] 0 none, some NimError.invalidPile)) ∧
    ((Nim.mk [1, 3, 5, 7] 0 none).move (0, 2) =
      (Nim.mk [1, 3, 5, 7] 0 none, some NimError.invalidNumberOfObjects)) :=
  ⟨(move_error_spec (Nim.mk [0, 0, 0, 0] 1 (some 1)) (0, 1)).1 (by decide),
   (move_error_spec (Nim.mk [1, 3, 5, 7] 0 none) (5, 1)).2.1 rfl (by decide),
   (move_error_spec (Nim.mk [1, 3, 5, 7] 0 none) (0, 2)).2.2.1 rfl (by decide) (by decide)⟩

theorem getD_set_self (l : List Nat) (n v : Nat) (h : n < l.length) :
    (l.set n v).getD n 0 = v := by
  induction l generalizing n with
  | nil => simp at h
  | cons a t ih =>
      cases n with
      | zero => rfl
      | succ n =>
          rw [List.set_cons_succ, List.getD_cons_succ]
          exact ih n (by simpa using h)

theorem getD_set_ne (l : List Nat) (n k v : Nat) (h : k ≠ n) :
    (l.set n v).getD k 0 = l.getD k 0 := by
  induction l generalizing n k with
  | nil => rfl
  | cons a t ih =>
      cases n with
      | zero =>
          cases k with
          | zero => exact absurd rfl h
          | succ k => rfl
      | succ n =>
          cases k with
          | zero => rfl
          | succ k =>
              rw [List.set_cons_succ, List.getD_cons_succ, List.getD_cons_succ]
              exact ih n k (fun he => h (by rw [he]))

/-- C2: from a non-terminal game, a legal action `(i, j)` succeeds, removes
exactly `j` objects from pile `i`, leaves every other pile unchanged, switches
the player, and sets the winner to the already-switched current player exactly
when all piles are then zero; concretely, from piles `[0,0,0,1]` with player 0,
the action `(3, 1)` yields piles `[0,0,0,0]`, player 1, winner 1. -/
theorem move_legal_spec :
    (∀ (g : Nim) (i j : Int), g.winner = none →
      (i, j) ∈ Nim.available_actions g.piles →
      ((g.move (i, j)).2 = none ∧
       (g.move (i, j)).1.piles.length = g.piles.length ∧
       (g.move (i, j)).1.piles.getD i.toNat 0 + j.toNat = g.piles.getD i.toNat 0 ∧
       (∀ k, k ≠ i.toNat → (g.move (i, j)).1.piles.getD k 0 = g.piles.getD k 0) ∧
       (g.move (i, j)).1.player = Nim.other_player g.player ∧
       ((g.move (i, j)).1.winner =
         if ∀ p ∈ (g.move (i, j)).1.piles, p = 0 then some (Nim.other_player g.player)
         else none))) ∧
    ((Nim.mk [0, 0, 0, 1] 0 none).move (3, 1) =
      (Nim.mk [0, 0, 0, 0] 1 (some 1), none)) := by
  constructor
  · intro g i j hw hmem
    rw [mem_available_actions] at hmem
    obtain ⟨h0, hlen, h1, hle⟩ := hmem
    have hw' : ¬(g.winner.isSome = true) := by simp [hw]
    have hnotp : ¬((i, j).1 < 0 ∨ (g.piles.length : Int) ≤ (i, j).1) := by
      show ¬(i < 0 ∨ (g.piles.length : Int) ≤ i)
      omega
    have hnotc : ¬((i, j).2 < 1 ∨ (g.piles.getD (i, j).1.toNat 0 : Int) < (i, j).2) := by
      show ¬(j < 1 ∨ (g.piles.getD i.toNat 0 : Int) < j)
      omega
    have hmove : g.move (i, j) =
        ({ piles := g.piles.set i.toNat (g.piles.getD i.toNat 0 - j.toNat),
           player := Nim.other_player g.player,
           winner :=
             if (g.piles.set i.toNat (g.piles.getD i.toNat 0 - j.toNat)).all
                 (fun pile => pile == 0)
             then some (Nim.other_player g.player) else g.winner },
         none) := by
      rw [Nim.move, if_neg hw', if_neg hnotp, if_neg hnotc]
    rw [hmove]
    refine ⟨rfl, by simp, ?_, ?_, rfl, ?_⟩
    · rw [getD_set_self _ _ _ hlen]
      omega
    · intro k hk
      exact getD_set_ne _ _ _ _ hk
    · rw [hw]
      exact if_congr (by simp [List.all_eq_true]) rfl rfl
  · decide

/-- Witness for C2: the general statement applied to the game with piles
`[0,0,0,1]`, player 0 to move, and its unique legal action `(3, 1)`. -/
theorem move_legal_spec_witness :
    (((Nim.mk [0, 0, 0, 1] 0 none).move (3, 1)).2 = none ∧
     ((Nim.mk [0, 0, 0, 1] 0 none).move (3, 1)).1.piles.length =
       (Nim.mk [0, 0, 0, 1] 0 none).piles.length ∧
     ((Nim.mk [0, 0, 0, 1] 0 none).move (3, 1)).1.piles.getD (3 : Int).toNat 0 +
         (1 : Int).toNat =
       (Nim.mk [0, 0, 0, 1] 0 none).piles.getD (3 : Int).toNat 0 ∧
     (∀ k, k ≠ (3 : Int).toNat →
       ((Nim.mk [0, 0, 0, 1] 0 none).move (3, 1)).1.piles.getD k 0 =
         (Nim.mk [0, 0, 0, 1] 0 none).piles.getD k 0) ∧
     ((Nim.mk [0, 0, 0, 1] 0 none).move (3, 1)).1.player = Nim.other_player 0 ∧
     (((Nim.mk [0, 0, 0, 1] 0 none).move (3, 1)).1.winner =
       if ∀ p ∈ ((Nim.mk [0, 0, 0, 1] 0 none).move (3, 1)).1.piles, p = 0
       then some (Nim.other_player 0) else none)) :=
  move_legal_spec.1 (Nim.mk [0, 0, 0, 1] 0 none) 3 1 rfl (by decide)

theorem max_q_fold_cons (ai : NimAI) (state : PySeq) (acc : WithBot ℚ × List (Int × Int))
    (x : Int × Int) (rest : List (Int × Int)) :
    ai.max_q_fold state acc (x :: rest) =
      ai.max_q_fold state
        (if (ai.get_q_value state x : WithBot ℚ) > acc.1 then
          ((ai.get_q_value state x : WithBot ℚ), [x])
         else if (ai.get_q_value state x : WithBot ℚ) = acc.1 then (acc.1, acc.2 ++ [x])
         else acc) rest := rfl

/-- Invariant of the `max_q` / `best_actions` loop: the running maximum never
decreases, bounds every processed Q-value, the tie list holds exactly actions
attaining the final maximum (drawn from the seed list or the processed ones),
and an empty tie list forces the maximum to still be `-inf`. -/
theorem max_q_fold_spec (ai : NimAI) (state : PySeq) :
    ∀ (actions : List (Int × Int)) (m : WithBot ℚ) (b : List (Int × Int)),
      (∀ a ∈ b, (ai.get_q_value state a : WithBot ℚ) = m) →
      (b = [] → m = ⊥) →
      (m ≤ (ai.max_q_fold state (m, b) actions).1 ∧
       (∀ a ∈ actions,
         (ai.get_q_value state a : WithBot ℚ) ≤ (ai.max_q_fold state (m, b) actions).1) ∧
       (∀ a ∈ (ai.max_q_fold state (m, b) actions).2,
         (ai.get_q_value state a : WithBot ℚ) = (ai.max_q_fold state (m, b) actions).1 ∧
         (a ∈ b ∨ a ∈ actions)) ∧
       ((ai.max_q_fold state (m, b) actions).2 = [] →
         (ai.max_q_fold state (m, b) actions).1 = ⊥)) := by
  intro actions
  induction actions with
  | nil =>
      intro m b h1 h2
      exact ⟨le_refl m, fun a ha => absurd ha (List.not_mem_nil a),
        fun a ha => ⟨h1 a ha, Or.inl ha⟩, h2⟩
  | cons x rest ih =>
      intro m b h1 h2
      rw [max_q_fold_cons]
      by_cases hgt : (ai.get_q_value state x : WithBot ℚ) > m
      · rw [if_pos hgt]
        obtain ⟨ih1, ih2, ih3, ih4⟩ :=
          ih (ai.get_q_value state x : WithBot ℚ) [x]
            (fun a ha => by rw [List.mem_singleton] at ha; rw [ha])
            (fun h => absurd h (List.cons_ne_nil x []))
        refine ⟨le_trans (le_of_lt hgt) ih1, ?_, ?_, ih4⟩
        · intro a ha
          rcases List.mem_cons.mp ha with rfl | ha
          · exact ih1
          · exact ih2 a ha
        · intro a ha
          obtain ⟨heq, hmem⟩ := ih3 a ha
          refine ⟨heq, Or.inr ?_⟩
          rcases hmem with h | h
          · rw [List.mem_singleton] at h; rw [h]; exact List.mem_cons_self x rest
          · exact List.mem_cons_of_mem x h
      · by_cases heq : (ai.get_q_value state x : WithBot ℚ) = m
        · rw [if_neg hgt, if_pos heq]
          obtain ⟨ih1, ih2, ih3, ih4⟩ :=
            ih m (b ++ [x])
              (fun a ha => by
                rcases List.mem_append.mp ha with h | h
                · exact h1 a h
                · rw [List.mem_singleton] at h; rw [h]; exact heq)
              (fun h => absurd h (by simp))
          refine ⟨ih1, ?_, ?_, ih4⟩
          · intro a ha
            rcases List.mem_cons.mp ha with rfl | ha
            · exact le_trans (le_of_eq heq) ih1
            · exact ih2 a ha
          · intro a ha
            obtain ⟨hq, hmem⟩ := ih3 a ha
            refine ⟨hq, ?_⟩
            rcases hmem with h | h
            · rcases List.mem_append.mp h with h' | h'
              · exact Or.inl h'
              · rw [List.mem_singleton] at h'; rw [h']
                exact Or.inr (List.mem_cons_self x rest)
            · exact Or.inr (List.mem_cons_of_mem x h)
        · rw [if_neg hgt, if_neg heq]
          obtain ⟨ih1, ih2, ih3, ih4⟩ := ih m b h1 h2
          refine ⟨ih1, ?_, ?_, ih4⟩
          · intro a ha
            rcases List.mem_cons.mp ha with rfl | ha
            · exact le_trans (not_lt.mp hgt) ih1
            · exact ih2 a ha
          · intro a ha
            obtain ⟨hq, hmem⟩ := ih3 a ha
            refine ⟨hq, ?_⟩
            rcases hmem with h | h
            · exact Or.inl h
            · exact Or.inr (List.mem_cons_of_mem x h)

/-- C3: in greedy mode (explore flag false, or the draw not below the
exploration rate), `choose_action` returns `none` exactly when the state has
no legal action, and otherwise every candidate it returns for the uniform
tie-break is a legal action whose Q-value equals the maximum over all legal
actions — never one of strictly lower value. -/
theorem choose_action_greedy_spec :
    ∀ (ai : NimAI) (state : PySeq) (actions : List (Int × Int)) (epsilon : Bool) (draw : ℚ),
      actions.toFinset = Nim.available_actions state.elems →
      (epsilon = false ∨ ¬draw < ai.epsilon) →
      ((ai.choose_action state actions epsilon draw = none ↔
          Nim.available_actions state.elems = ∅) ∧
       (∀ l, ai.choose_action state actions epsilon draw = some l →
          l ≠ [] ∧ ∀ a ∈ l, a ∈ Nim.available_actions state.elems ∧
            ∀ b ∈ Nim.available_actions state.elems,
              ai.get_q_value state b ≤ ai.get_q_value state a)) := by
  intro ai state actions epsilon draw htf hgr
  have hexp : ¬(epsilon = true ∧ draw < ai.epsilon) := by
    rcases hgr with h | h
    · rintro ⟨he, _⟩; rw [h] at he; exact Bool.false_ne_true he
    · rintro ⟨_, hd⟩; exact h hd
  by_cases hnil : actions = []
  · constructor
    · rw [NimAI.choose_action, if_pos hnil]
      constructor
      · intro _; rw [← htf, hnil]; rfl
      · intro _; rfl
    · intro l hl
      rw [NimAI.choose_action, if_pos hnil] at hl
      exact Option.noConfusion hl
  · have hres : ai.choose_action state actions epsilon draw =
        some (ai.max_q_fold state ((⊥ : WithBot ℚ), []) actions).2 := by
      rw [NimAI.choose_action, if_neg hnil, if_neg hexp]
    obtain ⟨ih1, ih2, ih3, ih4⟩ :=
      max_q_fold_spec ai state actions ⊥ []
        (fun a ha => absurd ha (List.not_mem_nil a)) (fun _ => rfl)
    constructor
    · rw [hres]
      constructor
      · intro h; exact Option.noConfusion h
      · intro hempty
        exfalso
        apply hnil
        rw [← List.toFinset_eq_empty_iff, htf, hempty]
    · intro l hl
      rw [hres] at hl
      injection hl with hl
      subst hl
      constructor
      · intro hB
        have hM := ih4 hB
        obtain ⟨x, hx⟩ := List.exists_mem_of_ne_nil actions hnil
        have hle := ih2 x hx
        rw [hM] at hle
        exact absurd (le_bot_iff.mp hle) WithBot.coe_ne_bot
      · intro a ha
        obtain ⟨hq, hmem⟩ := ih3 a ha
        have hmem' : a ∈ actions := by
          rcases hmem with h | h
          · exact absurd h (List.not_mem_nil a)
          · exact h
        refine ⟨by rw [← htf]; exact List.mem_toFinset.mpr hmem', ?_⟩
        intro bAct hbAct
        have hb : bAct ∈ actions := by
          rw [← htf] at hbAct
          exact List.mem_toFinset.mp hbAct
        have hle := ih2 bAct hb
        rw [← hq] at hle
        exact_mod_cast hle

/-- Witness for C3: fresh learner, state `(2)` with legal actions
`(0,1), (0,2)` both at Q-value 0, explore flag false: both candidates are
legal and of maximal value. -/
theorem choose_action_greedy_spec_witness :
    ([((0 : Int), (1 : Int)), (0, 2)] ≠ [] ∧
     ∀ a ∈ [((0 : Int), (1 : Int)), (0, 2)],
       a ∈ Nim.available_actions (PySeq.tuple [2]).elems ∧
       ∀ b ∈ Nim.available_actions (PySeq.tuple [2]).elems,
         (NimAI.init (1/2) (1/10)).get_q_value (PySeq.tuple [2]) b ≤
           (NimAI.init (1/2) (1/10)).get_q_value (PySeq.tuple [2]) a) :=
  (choose_action_greedy_spec (NimAI.init (1/2) (1/10)) (PySeq.tuple [2])
      [(0, 1), (0, 2)] false 0 (by decide) (Or.inl rfl)).2
    [(0, 1), (0, 2)] (by decide)

/-- Game states reachable from `s` through `move` attempts (a failed attempt
returns the state unchanged). -/
inductive Reachable (s : Nim) : Nim → Prop where
  | refl : Reachable s s
  | step (g : Nim) (a : Int × Int) : Reachable s g → Reachable s ((g.move a).1)

/-- A `move` on a finished game raises at once and changes nothing. -/
theorem move_terminal (g : Nim) (a : Int × Int) (h : g.winner.isSome = true) :
    g.move a = (g, some NimError.gameAlreadyWon) := by
  rw [Nim.move, if_pos h]

/-- A `move` attempt either leaves the game unchanged (an error was raised)
or, from a non-terminal game, produces the decremented piles, the switched
player, and the winner exactly on an all-empty board. -/
theorem move_cases (g : Nim) (a : Int × Int) :
    (g.move a).1 = g ∨
    (g.winner = none ∧
     (g.move a).1 =
       { piles := g.piles.set a.1.toNat (g.piles.getD a.1.toNat 0 - a.2.toNat),
         player := Nim.other_player g.player,
         winner :=
           if (g.piles.set a.1.toNat (g.piles.getD a.1.toNat 0 - a.2.toNat)).all
               (fun pile => pile == 0)
           then some (Nim.other_player g.player) else none }) := by
  rw [Nim.move]
  split_ifs with h1 h2 h3 h4 h5 h6
  all_goals
    first
      | exact Or.inl rfl
      | exact Or.inr ⟨Option.not_isSome_iff_eq_none.mp h1, rfl⟩
      | (refine Or.inr ⟨Option.not_isSome_iff_eq_none.mp h1, ?_⟩
         rw [Option.not_isSome_iff_eq_none.mp h1])

/-- One `move` attempt preserves the winner-iff-all-empty invariant. -/
theorem winner_invariant_step (g : Nim) (a : Int × Int)
    (h : g.winner.isSome = true ↔ ∀ p ∈ g.piles, p = 0) :
    ((g.move a).1.winner.isSome = true ↔ ∀ p ∈ (g.move a).1.piles, p = 0) := by
  rcases move_cases g a with heq | ⟨hw, heq⟩
  · rw [heq]; exact h
  · rw [heq]
    show (if (g.piles.set a.1.toNat (g.piles.getD a.1.toNat 0 - a.2.toNat)).all
            (fun pile => pile == 0)
          then some (Nim.other_player g.player) else none).isSome = true ↔
      ∀ p ∈ g.piles.set a.1.toNat (g.piles.getD a.1.toNat 0 - a.2.toNat), p = 0
    by_cases hall : (g.piles.set a.1.toNat (g.piles.getD a.1.toNat 0 - a.2.toNat)).all
        (fun pile => pile == 0) = true
    · rw [if_pos hall]
      simp only [Option.isSome_some, true_iff]
      simpa [List.all_eq_true] using hall
    · rw [if_neg hall]
      simp only [Option.isSome_none, Bool.false_eq_true, false_iff]
      intro hcontra
      apply hall
      simp only [List.all_eq_true, beq_iff_eq]
      exact hcontra

/-- Counterexample to C8 as stated: the empty list is (vacuously) a sequence
of positive pile sizes, yet at the reachable initial state of the game created
from it all piles are (vacuously) zero while the winner is unset, so
"winner is set iff all piles are zero" fails. -/
theorem winner_invariant_counterexample :
    (∀ p ∈ ([] : List Nat), 0 < p) ∧
    Reachable (Nim.init []) (Nim.init []) ∧
    ¬((Nim.init []).winner.isSome = true ↔ ∀ p ∈ (Nim.init []).piles, p = 0) := by
  refine ⟨fun p hp => absurd hp (List.not_mem_nil p), Reachable.refl, ?_⟩
  intro h
  have hcontra := h.mpr (fun p hp => absurd hp (List.not_mem_nil p))
  exact Bool.false_ne_true hcontra

/-- C8 (amended: nonempty initial configuration): for every game created from
a nonempty sequence of positive pile sizes and evolved through `move`, every
reachable state has its winner set if and only if all piles are zero, and once
the winner is set every further move attempt is rejected with the
terminal-game error, leaving the game unchanged. -/
theorem winner_invariant_reachable :
    ∀ (initial : List Nat), initial ≠ [] → (∀ p ∈ initial, 0 < p) →
      ∀ g, Reachable (Nim.init initial) g →
        ((g.winner.isSome = true ↔ ∀ p ∈ g.piles, p = 0) ∧
         (g.winner.isSome = true →
           ∀ a, g.move a = (g, some NimError.gameAlreadyWon))) := by
  intro initial hne hpos g hreach
  have hmain : g.winner.isSome = true ↔ ∀ p ∈ g.piles, p = 0 := by
    induction hreach with
    | refl =>
        constructor
        · intro hcontra; exact absurd hcontra (Bool.false_ne_true ∘ id)
        · intro hall
          exfalso
          obtain ⟨x, hx⟩ := List.exists_mem_of_ne_nil initial hne
          have hx0 := hpos x hx
          have hx1 := hall x hx
          omega
    | step g' a _ ih => exact winner_invariant_step g' a ih
  exact ⟨hmain, fun hw a => move_terminal g a hw⟩

/-- Witness for C8 (amended) on the game with one pile of one object, after
the move that empties it: the winner is set, the board is all zeros, and any
further move is rejected unchanged. -/
theorem winner_invariant_reachable_witness :
    ((((Nim.init [1]).move (0, 1)).1.winner.isSome = true ↔
        ∀ p ∈ ((Nim.init [1]).move (0, 1)).1.piles, p = 0) ∧
     (((Nim.init [1]).move (0, 1)).1.winner.isSome = true →
       ∀ a, ((Nim.init [1]).move (0, 1)).1.move a =
         (((Nim.init [1]).move (0, 1)).1, some NimError.gameAlreadyWon))) :=
  winner_invariant_reachable [1] (by decide) (by decide) _
    (Reachable.step (Nim.init [1]) (0, 1) Reachable.refl)

theorem sum_set_add (l : List Nat) (n v : Nat) (h : n < l.length) :
    (l.set n v).sum + l.getD n 0 = l.sum + v := by
  induction l generalizing n with
  | nil => simp at h
  | cons a t ih =>
      cases n with
      | zero =>
          simp only [List.set_cons_zero, List.sum_cons, List.getD_cons_zero]
          omega
      | succ n =>
          have hrec := ih n (by simpa using h)
          simp only [List.set_cons_succ, List.sum_cons, List.getD_cons_succ]
          omega

/-- A successful `move` removes exactly `count` objects from the total, and
`count` is at least 1. -/
theorem move_ok_sum (g : Nim) (a : Int × Int) (g' : Nim)
    (h : g.move a = (g', none)) :
    g'.piles.sum + a.2.toNat = g.piles.sum ∧ 1 ≤ a.2 := by
  rw [Nim.move] at h
  split_ifs at h with h1 h2 h3 h4
  · simp at h
  · simp at h
  · simp at h
  all_goals (
    rw [Prod.mk.injEq] at h
    obtain ⟨hg, _⟩ := h
    subst hg
    have hsum := sum_set_add g.piles a.1.toNat (g.piles.getD a.1.toNat 0 - a.2.toNat)
      (by omega)
    refine ⟨?_, by omega⟩
    show (g.piles.set a.1.toNat (g.piles.getD a.1.toNat 0 - a.2.toNat)).sum + a.2.toNat =
      g.piles.sum
    omega)

/-- Counting successful moves: `MovesTo s n g` holds when `g` arises from `s`
by `n` successful `move` calls. -/
inductive MovesTo (s : Nim) : Nat → Nim → Prop where
  | refl : MovesTo s 0 s
  | step (n : Nat) (g g' : Nim) (a : Int × Int) :
      MovesTo s n g → g.move a = (g', none) → MovesTo s (n + 1) g'

/-- C9: every successful `move` strictly decreases the total number of objects
by exactly `count ≥ 1`, so a game reached by `n` successful moves satisfies
`n + remaining total ≤ initial total`: since totals are nonnegative, at most
sum-of-initial-piles moves can ever be played (every episode terminates). -/
theorem move_decreases_total :
    (∀ (g : Nim) (a : Int × Int) (g' : Nim), g.move a = (g', none) →
      (g'.piles.sum + a.2.toNat = g.piles.sum ∧ 1 ≤ a.2)) ∧
    (∀ (g : Nim) (n : Nat) (g' : Nim), MovesTo g n g' →
      n + g'.piles.sum ≤ g.piles.sum) := by
  refine ⟨move_ok_sum, ?_⟩
  intro g n g' hmt
  induction hmt with
  | refl => omega
  | step n g1 g2 a _ hmove ih =>
      obtain ⟨hsum, hcnt⟩ := move_ok_sum g1 a g2 hmove
      omega

/-- Witness for C9: the single legal move on the one-pile game `(1)` removes
one object and the one-move bound holds. -/
theorem move_decreases_total_witness :
    ((Nim.mk [0] 1 (some 1)).piles.sum + ((1 : Int)).toNat =
        (Nim.mk [1] 0 none).piles.sum ∧ (1 : Int) ≤ 1) ∧
    (1 + (Nim.mk [0] 1 (some 1)).piles.sum ≤ (Nim.mk [1] 0 none).piles.sum) :=
  ⟨move_decreases_total.1 (Nim.mk [1] 0 none) (0, 1) (Nim.mk [0] 1 (some 1)) (by decide),
   move_decreases_total.2 (Nim.mk [1] 0 none) 1 (Nim.mk [0] 1 (some 1))
     (MovesTo.step 0 (Nim.mk [1] 0 none) (Nim.mk [0] 1 (some 1)) (0, 1)
       MovesTo.refl (by decide))⟩
